import Mathlib

/-!
Verification of the LensTools convergence-map statistics and Fisher/Emulator
inference engine against its specification.

The development shallowly embeds the Python sources
(src/lenstools/convergence.py and src/lenstools/statistics/constraints.py)
into Lean.  Real-valued numpy arrays are modelled over ℚ (the float
computations are exact field operations, so the algebraic identities are
stated over an exact field).  2D arrays are lists of rows; fixed-shape
ensembles use `Matrix (Fin n) (Fin m) ℚ`.  A Python method that can raise
(assert / numpy error) returns `Option` or `Except`.

Square roots (numpy `std`) are not representable in ℚ: wherever the code
computes a standard deviation, the embedding takes the value as an explicit
argument and the theorems pin it down by the hypotheses
`0 ≤ s ∧ s ^ 2 = variance …`.

The C backend `_topology` and the numpy FFT are not part of the sources;
per the specification they are opaque deterministic numeric kernels and are
passed as explicit function parameters where a claim needs them.
-/

namespace LensTools

/-! ## Helpers shared by the embedding -/

/-- Mean of a list of rationals: `l.sum / len(l)` (numpy `mean`). -/
def meanQ (l : List ℚ) : ℚ := l.sum / l.length

/-- Population variance (numpy `std` squared, `ddof = 0`). -/
def variance (l : List ℚ) : ℚ := meanQ (l.map (fun x => (x - meanQ l) ^ 2))

/-- Python code `0.5 * (thresholds[:-1] + thresholds[1:])`: pairwise averages of
consecutive entries. -/
def midpoints (ts : List ℚ) : List ℚ := List.zipWith (fun a b => (a + b) / 2) ts ts.tail

/-- Differences of consecutive entries (`np.diff`): bin widths. -/
def binWidths (es : List ℚ) : List ℚ := List.zipWith (fun lo hi => hi - lo) es es.tail

/-- Per-bin counts of `np.histogram(a, bins := es)`: every bin is
half-open `[lo, hi)` except the last, which is closed `[lo, hi]`. -/
def binCounts (a : List ℚ) : List ℚ → List ℕ
  | [] => []
  | [_] => []
  | lo :: hi :: rest =>
      (if rest.isEmpty then a.countP (fun x => decide (lo ≤ x) && decide (x ≤ hi))
       else a.countP (fun x => decide (lo ≤ x) && decide (x < hi))) :: binCounts a (hi :: rest)

/-- Python code `np.histogram(a, bins := es, density := True)`: counts divided by
(total in-range count × bin width). -/
def histDensity (a : List ℚ) (es : List ℚ) : List ℚ :=
  List.zipWith (fun (c : ℕ) w => (c : ℚ) / (((binCounts a es).sum : ℚ) * w))
    (binCounts a es) (binWidths es)

/-! ## ConvergenceMap (src/lenstools/convergence.py) -/

/-- A 2D convergence map: `kappa` (list of rows) and `side_angle`. -/
structure ConvergenceMap where
  kappa : List (List ℚ)
  side_angle : ℚ

/-- The shape information of a 2D numpy array, as the profile of row
lengths (for rectangular arrays this determines `shape`). -/
def npShape (a : List (List ℚ)) : List ℕ := a.map List.length

/-- Error kinds a `pdf` call can surface: the method's own eager
`assert` (the InvalidInput precondition) versus an error raised later
from inside the `np.histogram` library call. -/
inductive PdfError where
  | assertionFailure
  | numpyError
  deriving DecidableEq

/-- Python code `np.histogram(..., density=True)` as called by `pdf`: an empty bin-edge
array makes numpy raise from inside the library (the counting code indexes
`bins[-1]`); otherwise the density histogram is returned. -/
def npHistogram (a : List ℚ) (es : List ℚ) : Except PdfError (List ℚ) :=
  if es.isEmpty then .error .numpyError else .ok (histDensity a es)

/-- Python code `ConvergenceMap.pdf(thresholds, norm)`.  `thresholds` is `Option` to
model the Python `assert thresholds is not None`; `sigmaStd` stands in for
`self.kappa.std()` (a square root, pinned by hypotheses in the theorems).
The code computes the midpoints, scales the bins by `sigma`
(`sigma = std` if `norm` else `1.0`), histograms with `density=True` and
returns `(midpoints, hist * sigma)`. -/
def pdf (m : ConvergenceMap) (thresholds : Option (List ℚ)) (norm : Bool) (sigmaStd : ℚ) :
    Except PdfError (List ℚ × List ℚ) :=
  match thresholds with
  | none => .error .assertionFailure
  | some ts =>
      let sigma : ℚ := if norm then sigmaStd else 1
      match npHistogram m.kappa.flatten (ts.map (· * sigma)) with
      | .error e => .error e
      | .ok hist => .ok (midpoints ts, hist.map (· * sigma))

/-- Input to `ConvergenceMap.moments`: the map values together with the
cached gradient/Hessian attributes (produced by the opaque `_topology`
kernels), all flattened. -/
structure MapDerivatives where
  kappa : List ℚ
  gx : List ℚ
  gy : List ℚ
  hxx : List ℚ
  hyy : List ℚ
  hxy : List ℚ

/-- Python code `gradient_x**2 + gradient_y**2`, elementwise. -/
def gradSq (d : MapDerivatives) : List ℚ :=
  List.zipWith (fun x y => x ^ 2 + y ^ 2) d.gx d.gy

/-- The Laplacian `hessian_xx + hessian_yy`, elementwise. -/
def laplacian (d : MapDerivatives) : List ℚ :=
  List.zipWith (· + ·) d.hxx d.hyy

/-- Python code `ConvergenceMap.moments(connected, dimensionless)`, returning the
9-vector `[sigma0, sigma1, S0, S1, S2, K0, K1, K2, K3]`.  `sigma0` and
`sigma1` stand in for `kappa.std()` and `sqrt(mean(|grad|^2))` (square
roots, pinned by hypotheses in the theorems); the code only combines them
through even powers in the corrections and normalizations. -/
def moments (d : MapDerivatives) (sigma0 sigma1 : ℚ) (connected dimensionless : Bool) :
    List ℚ :=
  let S0 := meanQ (d.kappa.map (· ^ 3))
  let S1 := meanQ (List.zipWith (fun k l => k ^ 2 * l) d.kappa (laplacian d))
  let S2 := meanQ (List.zipWith (· * ·) (gradSq d) (laplacian d))
  let K0 := meanQ (d.kappa.map (· ^ 4))
  let K1 := meanQ (List.zipWith (fun k l => k ^ 3 * l) d.kappa (laplacian d))
  let K2 := meanQ (List.zipWith (· * ·) (List.zipWith (· * ·) d.kappa (gradSq d)) (laplacian d))
  let K3 := meanQ ((gradSq d).map (· ^ 2))
  let K0 := if connected then K0 - 3 * sigma0 ^ 4 else K0
  let K1 := if connected then K1 + 3 * sigma0 ^ 2 * sigma1 ^ 2 else K1
  let K2 := if connected then K2 + sigma1 ^ 4 else K2
  let K3 := if connected then K3 - 2 * sigma1 ^ 4 else K3
  if dimensionless then
    [sigma0 / sigma0, sigma1 / sigma1,
     S0 / sigma0 ^ 3, S1 / (sigma0 * sigma1 ^ 2), S2 * (sigma0 / sigma1 ^ 4),
     K0 / sigma0 ^ 4, K1 / (sigma0 ^ 2 * sigma1 ^ 2), K2 / sigma1 ^ 4, K3 / sigma1 ^ 4]
  else
    [sigma0, sigma1, S0, S1, S2, K0, K1, K2, K3]

/-- The type of the opaque real-input 2D FFT (`np.fft.rfft2`): complex
entries are (re, im) pairs. -/
def FFTKernel : Type := List (List ℚ) → List (List (ℚ × ℚ))

/-- The type of the opaque azimuthal-binning C kernel
(`_topology.rfft2_azimuthal(ft1, ft2, side_angle, l_edges)`). -/
def AzimuthalKernel : Type := List (List (ℚ × ℚ)) → List (List (ℚ × ℚ)) → ℚ → List ℚ → List ℚ

/-- Python code `ConvergenceMap.powerSpectrum(l_edges)`: midpoints of the edges, FFT of
`kappa`, and the azimuthal kernel applied to the transform paired with
itself. -/
def powerSpectrum (rfft2 : FFTKernel) (azimuthal : AzimuthalKernel)
    (m : ConvergenceMap) (l_edges : List ℚ) : List ℚ × List ℚ :=
  let l := midpoints l_edges
  let ft_map := rfft2 m.kappa
  (l, azimuthal ft_map ft_map m.side_angle l_edges)

/-- Python code `ConvergenceMap.cross(other, l_edges)`: asserts equal `side_angle` and
equal `kappa` shape, then applies the azimuthal kernel to the two
transforms. -/
def cross (rfft2 : FFTKernel) (azimuthal : AzimuthalKernel)
    (m other : ConvergenceMap) (l_edges : List ℚ) : Option (List ℚ × List ℚ) :=
  let l := midpoints l_edges
  if m.side_angle = other.side_angle ∧ npShape m.kappa = npShape other.kappa then
    some (l, azimuthal (rfft2 m.kappa) (rfft2 other.kappa) m.side_angle l_edges)
  else
    none

/-- The dynamic type of the right-hand side of `ConvergenceMap.__add__`,
as discriminated by the Python code: another map, a value of exact Python
type `float` (`type(rhs) == np.float`), a value of exact type `int`
(a scalar that is *not* a float), a raw `np.ndarray`, or anything else. -/
inductive AddRhs where
  | map (o : ConvergenceMap)
  | pyfloat (x : ℚ)
  | pyint (n : ℤ)
  | arr (a : List (List ℚ))
  | other

/-- Elementwise sum of two 2D arrays. -/
def elemAdd (a b : List (List ℚ)) : List (List ℚ) :=
  List.zipWith (List.zipWith (· + ·)) a b

/-- Python code `ConvergenceMap.__add__`: a map right-hand side asserts equal
`side_angle` and shape; `type(rhs) == np.float` catches exactly Python
floats (an `int` scalar falls through); `type(rhs) == np.ndarray` asserts
equal shape; everything else raises `TypeError`.  `none` models a raised
error. -/
def convAdd (m : ConvergenceMap) : AddRhs → Option ConvergenceMap
  | .map o =>
      if m.side_angle = o.side_angle ∧ npShape m.kappa = npShape o.kappa then
        some ⟨elemAdd m.kappa o.kappa, m.side_angle⟩
      else none
  | .pyfloat x => some ⟨m.kappa.map (List.map (· + x)), m.side_angle⟩
  | .pyint _ => none
  | .arr a =>
      if npShape a = npShape m.kappa then
        some ⟨elemAdd m.kappa a, m.side_angle⟩
      else none
  | .other => none

/-! ## Linear algebra (numpy.linalg solve / inv over an exact field) -/

/-- Over ℚ the matrix inverse is `det⁻¹ • adjugate` (equal to Mathlib's
`A⁻¹` for every `A`, and to the true inverse when `det ≠ 0`). -/
def invMat {n : ℕ} (A : Matrix (Fin n) (Fin n) ℚ) : Matrix (Fin n) (Fin n) ℚ :=
  A.det⁻¹ • A.adjugate

/-- Python code `numpy.linalg.solve(A, B)`: raises `LinAlgError` exactly on a singular
matrix, otherwise returns `A⁻¹ * B`. -/
def npSolve {n m : ℕ} (A : Matrix (Fin n) (Fin n) ℚ) (B : Matrix (Fin n) (Fin m) ℚ) :
    Option (Matrix (Fin n) (Fin m) ℚ) :=
  if A.det = 0 then none else some (invMat A * B)

/-! ## FisherAnalysis (src/lenstools/statistics/constraints.py) -/

/-- The data of a `FisherAnalysis`: the `parameters` block (`N` models ×
`P` parameters), the `features` block (`N` models × `F` feature bins) and
the `_fiducial` row index. -/
structure FisherAnalysis (N P F : ℕ) where
  parameter_set : Matrix (Fin N) (Fin P) ℚ
  feature_set : Matrix (Fin N) (Fin F) ℚ
  fid : Fin N

/-- One entry of the `_variations` boolean matrix:
`parameter_set != parameter_set[_fiducial]`. -/
def variesB {N P F : ℕ} (fa : FisherAnalysis N P F) (i : Fin N) (j : Fin P) : Bool :=
  decide (fa.parameter_set i j ≠ fa.parameter_set fa.fid j)

/-- Python code `_variations.sum(1)` for one row: how many parameters row `i` varies. -/
def rowVariations {N P F : ℕ} (fa : FisherAnalysis N P F) (i : Fin N) : ℕ :=
  ((List.finRange P).filter (fun j => variesB fa i j)).length

/-- Python code `_variations.sum(0)` for one column: how many rows vary parameter `j`. -/
def colVariations {N P F : ℕ} (fa : FisherAnalysis N P F) (j : Fin P) : ℕ :=
  ((List.finRange N).filter (fun i => variesB fa i j)).length

/-- Python code `FisherAnalysis.check()`: asserts that no row varies two or more
parameters at once (`none` models the raised `AssertionError`); returns 0
if additionally no parameter is varied in more than one row, else 1. -/
def check {N P F : ℕ} (fa : FisherAnalysis N P F) : Option ℕ :=
  if ∀ i, rowVariations fa i < 2 then
    (if ∀ j, colVariations fa j < 2 then some 0 else some 1)
  else none

/-- Python code `np.where(self._variations == 1)` in row-major order: the list of
(row, parameter) positions of the variations. -/
def variationPairs {N P F : ℕ} (fa : FisherAnalysis N P F) : List (Fin N × Fin P) :=
  ((List.finRange N).flatMap (fun i => (List.finRange P).map (fun j => (i, j)))).filter
    (fun ij => variesB fa ij.1 ij.2)

/-- The `check() == 0` branch of `FisherAnalysis.where()`: the dictionary
assignment `loc[v[1][n]] = v[0][n]` over the variation positions, i.e. for
each parameter the last row (in row-major order) that varies it, if any. -/
def whereLoc {N P F : ℕ} (fa : FisherAnalysis N P F) (p : Fin P) : Option (Fin N) :=
  (variationPairs fa).foldl (fun acc ij => if ij.2 = p then some ij.1 else acc) none

/-- Python code `FisherAnalysis.varied`: the sorted list of parameter indices that are
varied (the sorted keys of `where()`). -/
def varied {N P F : ℕ} (fa : FisherAnalysis N P F) : List (Fin P) :=
  (List.finRange P).filter (fun p => (whereLoc fa p).isSome)

/-- The derivative matrix built by `compute_derivatives`: row `n` is the
one-sided finite difference for the `n`-th varied parameter `p`,
`(feature_set[loc[p]] - feature_set[fid]) / (parameter_set[loc[p], p] -
parameter_set[fid, p])`. -/
def derivativesMatrix {N P F : ℕ} (fa : FisherAnalysis N P F) :
    Matrix (Fin (varied fa).length) (Fin F) ℚ :=
  fun n j =>
    let p := (varied fa).get n
    match whereLoc fa p with
    | some i =>
        (fa.feature_set i j - fa.feature_set fa.fid j) /
          (fa.parameter_set i p - fa.parameter_set fa.fid p)
    | none => 0

/-- Python code `FisherAnalysis.compute_derivatives()`: asserts at least 2 models and
`check() == 0` (first-order finite differences only), then returns the
derivative matrix of shape (number of varied parameters, F). -/
def compute_derivatives {N P F : ℕ} (fa : FisherAnalysis N P F) :
    Option (Matrix (Fin (varied fa).length) (Fin F) ℚ) :=
  if 1 < N ∧ check fa = some 0 then some (derivativesMatrix fa) else none

/-- A features covariance, either a full `F × F` matrix or the diagonal as
a 1D array (the two shapes accepted by `chi2` / `fit`). -/
inductive Covariance (F : ℕ) where
  | full (C : Matrix (Fin F) (Fin F) ℚ)
  | diag (c : Fin F → ℚ)

/-- Python code `FisherAnalysis.fit(observed_feature, features_covariance)`: computes
the derivatives if absent, solves the generalized-least-squares normal
equations `M = (D Y)⁻¹ Yᵀ` with `Y = C⁻¹ Dᵀ` (or the elementwise analogue
for a diagonal covariance), and returns
`parameter_set[fid, varied] + M ⬝ (observed - feature_set[fid])`. -/
def fit {N P F : ℕ} (fa : FisherAnalysis N P F) (observed_feature : Fin F → ℚ)
    (cov : Covariance F) : Option (Fin (varied fa).length → ℚ) :=
  match compute_derivatives fa with
  | none => none
  | some D =>
      let Yo : Option (Matrix (Fin F) (Fin (varied fa).length) ℚ) :=
        match cov with
        | .full C => npSolve C D.transpose
        | .diag c => some (fun j n => (1 / c j) * D.transpose j n)
      match Yo with
      | none => none
      | some Y =>
          match npSolve (D * Y) Y.transpose with
          | none => none
          | some M =>
              some (fun n =>
                fa.parameter_set fa.fid ((varied fa).get n) +
                  M.mulVec (fun j => observed_feature j - fa.feature_set fa.fid j) n)

/-- Python code `FisherAnalysis.chi2(observed_feature, features_covariance)` for a
batch of observed feature rows: difference to the fiducial feature, then
the sandwich product with the inverse covariance (matrix solve for a full
covariance — `none` when singular — or elementwise for a diagonal one). -/
def fisherChi2 {N P F : ℕ} (fa : FisherAnalysis N P F) (observed : List (Fin F → ℚ))
    (cov : Covariance F) : Option (List ℚ) :=
  match cov with
  | .diag c =>
      some (observed.map (fun o => ∑ j, (o j - fa.feature_set fa.fid j) ^ 2 / c j))
  | .full C =>
      let Dm : Matrix (Fin observed.length) (Fin F) ℚ :=
        fun r j => observed.get r j - fa.feature_set fa.fid j
      match npSolve C Dm.transpose with
      | none => none
      | some S =>
          some ((List.finRange observed.length).map (fun r => ∑ j, Dm r j * S j r))

/-- Python code `FisherAnalysis.set_fiducial(n)`: asserts `n < N`, then stores `n` as
the fiducial row index. -/
def set_fiducial {N P F : ℕ} (fa : FisherAnalysis N P F) (n : ℕ) :
    Option (FisherAnalysis N P F) :=
  if h : n < N then some { fa with fid := ⟨n, h⟩ } else none

/-- Python code `np.argmin` over a list: index of the first minimal entry. -/
def argminAux : List ℚ → ℕ → ℕ → ℚ → ℕ
  | [], _, bi, _ => bi
  | x :: xs, i, bi, bv => if x < bv then argminAux xs (i + 1) i x else argminAux xs (i + 1) bi bv

/-- First index of the minimum of a list (`np.argmin`). -/
def listArgmin : List ℚ → ℕ
  | [] => 0
  | x :: xs => argminAux xs 1 0 x

/-- The value returned by `classify`: either the per-observation labels or
the per-label assignment fractions (`confusion=True`). -/
inductive ClassifyResult where
  | labels (cs : List ℕ)
  | confusion (fracs : List ℚ)

/-- Python code `FisherAnalysis.classify(observed_feature, features_covariance, labels,
confusion)`: saves the fiducial index, loops `set_fiducial(l)` + `chi2`
over the candidate labels, restores the fiducial index, takes the
per-observation argmin over labels and maps it through `labels`.  The
returned pair carries the final state of the analysis (its `_fiducial`
field is the mutable state threaded through the call) together with the
classification output. -/
def classify {N P F : ℕ} (fa : FisherAnalysis N P F) (observed : List (Fin F → ℚ))
    (cov : Covariance F) (labels : List ℕ) (confusion : Bool) :
    Option (FisherAnalysis N P F × ClassifyResult) :=
  match labels.foldlM
      (fun (st : FisherAnalysis N P F × List (List ℚ)) l =>
        match set_fiducial st.1 l with
        | none => none
        | some fa2 =>
            match fisherChi2 fa2 observed cov with
            | none => none
            | some c => some (fa2, st.2 ++ [c]))
      (fa, ([] : List (List ℚ))) with
  | none => none
  | some st =>
      match set_fiducial st.1 fa.fid.val with
      | none => none
      | some faFinal =>
          let chi2_min : List ℕ := (List.range observed.length).map
            (fun r => listArgmin (st.2.map (fun row => row.getD r 0)))
          let classes : List ℕ := chi2_min.map (fun n => labels.getD n 0)
          if confusion then
            some (faFinal, ClassifyResult.confusion (labels.map
              (fun l => ((classes.filter (fun c => c == l)).length : ℚ) / (classes.length : ℚ))))
          else
            some (faFinal, ClassifyResult.labels classes)

/-! ## Analysis.reparametrize and the FisherAnalysis override -/

/-- A generic analysis ensemble: a `parameters` block and a `features`
block, as lists of rows. -/
structure AnalysisE where
  params : List (List ℚ)
  features : List (List ℚ)

/-- Python code `Analysis.reparametrize(transformation)`: copies the ensemble, applies
the transformation row-wise to the parameter block of the copy and returns
the copy; the feature block and the original ensemble are untouched. -/
def reparametrize (a : AnalysisE) (t : List ℚ → List ℚ) : AnalysisE :=
  { params := a.params.map t, features := a.features }

/-- Row-wise parameter transformation of a `FisherAnalysis` (what the
base-class `reparametrize` builds for the Fisher subclass). -/
def fisherSuperReparametrize {N P F : ℕ} (fa : FisherAnalysis N P F)
    (t : (Fin P → ℚ) → (Fin P → ℚ)) : FisherAnalysis N P F :=
  { fa with parameter_set := fun i => t (fa.parameter_set i) }

/-- Python code `FisherAnalysis.reparametrize(formatter)`: calls the parent method but
discards its result, then runs `self.check()` on the *unchanged* self and
falls off the end of the method — so the Python method returns `None`
(modelled by `Unit`) instead of the reparametrized ensemble, or raises if
`check()` raises. -/
def fisherReparametrize {N P F : ℕ} (fa : FisherAnalysis N P F)
    (t : (Fin P → ℚ) → (Fin P → ℚ)) : Option Unit :=
  let _discarded := fisherSuperReparametrize fa t
  match check fa with
  | none => none
  | some _ => some ()

/-! ## Emulator.chi2 (src/lenstools/statistics/constraints.py) -/

/-- The chunk decomposition `[parameters[n*len : (n+1)*len] for n in
range(k)]` with `len = num_points // k`. -/
def chunkList (l : List (List ℚ)) (k : ℕ) : List (List (List ℚ)) :=
  (List.range k).map (fun n => (l.drop (n * (l.length / k))).take (l.length / k))

/-- One point's chi2 as computed by the module-level `chi2` helper:
`(obs - model) · covinv · (obs - model)` with the model feature given by
the per-bin interpolators (opaque trained kernels `interp`). -/
def emuChi2Single (interp : ℕ → List ℚ → ℚ) (F : ℕ) (obs : Fin F → ℚ)
    (covinv : Matrix (Fin F) (Fin F) ℚ) (pt : List ℚ) : ℚ :=
  let diff : Fin F → ℚ := fun j => obs j - interp j.val pt
  ∑ j, diff j * (∑ i, diff i * covinv i j)

/-- Python code `Emulator.chi2(parameters, observed_feature, features_covariance,
split_chunks)` for a 2D parameter list: reformats the points into chunks
(`split_chunks = None` keeps one chunk; a positive count must divide the
number of points; a non-positive one raises), inverts the covariance once
(raising on a singular matrix), maps the chi2 helper over the chunks and
concatenates (`np.array(...).reshape(num_points)`). -/
def emulatorChi2 (interp : ℕ → List ℚ → ℚ) {F : ℕ} (parameters : List (List ℚ))
    (obs : Fin F → ℚ) (C : Matrix (Fin F) (Fin F) ℚ) (split_chunks : Option ℕ) :
    Option (List ℚ) := do
  let chunks ←
    match split_chunks with
    | none => some [parameters]
    | some k =>
        if 0 < k then
          (if parameters.length % k = 0 then some (chunkList parameters k) else none)
        else none
  if C.det = 0 then none else
  let covinv := invMat C
  some ((chunks.map (fun ch => ch.map (emuChi2Single interp F obs covinv))).flatten)

/-! ## Concrete instances and claim-specific input constructions -/

/-- The quadratic form `v · C⁻¹ · v` of the inverse covariance. -/
def quadForm {F : ℕ} (C : Matrix (Fin F) (Fin F) ℚ) (v : Fin F → ℚ) : ℚ :=
  ∑ j, v j * ∑ k, invMat C j k * v k

/-- The covariance condition of the amended C2: a full matrix must be
invertible with a nonzero quadratic form of its inverse at Δ (as holds
for any symmetric positive-definite covariance with Δ ≠ 0); a diagonal
one must be positive, with Δ ≠ 0. -/
def covFitOK {F : ℕ} : Covariance F → (Fin F → ℚ) → Prop
  | .full C, v => C.det ≠ 0 ∧ quadForm C v ≠ 0
  | .diag c, v => (∀ j, 0 < c j) ∧ v ≠ 0

/-- The two-row Fisher analysis of C2: fiducial row `(p0, f0)` and one
row `(p0 + d·e_q, f0 + Df)` varying the single parameter `q` by `d`. -/
def twoRowFA (P F : ℕ) (p0 : Fin P → ℚ) (q : Fin P) (d : ℚ) (f0 Df : Fin F → ℚ) :
    FisherAnalysis 2 P F where
  parameter_set := fun i j => if i = 0 then p0 j else p0 j + (if j = q then d else 0)
  feature_set := fun i j => if i = 0 then f0 j else f0 j + Df j
  fid := 0

/-- A concrete map-with-derivatives whose variance and gradient-square
mean are perfect rational squares. -/
def exDeriv : MapDerivatives :=
  ⟨[1, -1, 1, -1], [1, 1, 1, 1], [0, 0, 0, 0], [0, 0, 0, 0], [0, 0, 0, 0], [0, 0, 0, 0]⟩

/-- A concrete Fisher analysis: two rows, two parameters, one feature bin;
the second row varies the first parameter by 1 and shifts the feature by
2. -/
def exFA1 : FisherAnalysis 2 2 1 :=
  ⟨!![0, 0; 1, 0], !![3; 5], 0⟩

/-- A concrete Fisher analysis for the classify witness. -/
def exFA10 : FisherAnalysis 2 1 1 := ⟨!![0; 1], !![0; 1], 0⟩

/-! ## C4: cross of a field with itself equals its auto power spectrum -/

/-- C4: for every convergence map `m` and every multipole edge sequence,
`m.cross(m, l_edges)` succeeds (its preconditions hold trivially for
`other = self`) and returns exactly the `(l, spectrum)` pair of
`m.powerSpectrum(l_edges)`, for any FFT and azimuthal kernels. -/
theorem cross_self_eq_powerSpectrum (rfft2 : FFTKernel) (azimuthal : AzimuthalKernel)
    (m : ConvergenceMap) (l_edges : List ℚ) :
    cross rfft2 azimuthal m m l_edges = some (powerSpectrum rfft2 azimuthal m l_edges) := by
  simp [cross, powerSpectrum]

/-! ## C6: Emulator.chi2 with split_chunks = 1 equals no chunking -/

/-- C6: for every trained emulator (any per-bin interpolators), parameter
list, observed feature and full covariance, `chi2` with `split_chunks = 1`
returns exactly the same value as `chi2` with `split_chunks = None`. -/
theorem emulator_chi2_split_one (interp : ℕ → List ℚ → ℚ) {F : ℕ}
    (parameters : List (List ℚ)) (obs : Fin F → ℚ) (C : Matrix (Fin F) (Fin F) ℚ) :
    emulatorChi2 interp parameters obs C (some 1) = emulatorChi2 interp parameters obs C none := by
  have h : chunkList parameters 1 = [parameters] := by
    simp [chunkList, List.range_succ]
  simp [emulatorChi2, h, Nat.mod_one]

/-! ## C7: pdf's precondition check and the empty-thresholds case -/

/-- C7 counterexample to the claim as stated: with an *empty* (but
provided) thresholds sequence, `pdf` passes its eager precondition
(`assert thresholds is not None`) and the failure comes later from inside
the `np.histogram` library call, not as the claimed eager
InvalidInput-class precondition error. -/
theorem pdf_empty_thresholds_cex :
    pdf ⟨[[1]], 1⟩ (some []) false 1 = .error .numpyError ∧
    pdf ⟨[[1]], 1⟩ (some []) false 1 ≠ .error .assertionFailure := by
  constructor <;> simp [pdf, npHistogram]

/-- C7 amended: the eager precondition of `pdf` rejects exactly a missing
(`None`) thresholds argument; an empty thresholds sequence passes the
assert and the error surfaces later from within the histogram library
call, for every field and both values of `norm`. -/
theorem pdf_precondition (m : ConvergenceMap) (norm : Bool) (s : ℚ) :
    pdf m none norm s = .error .assertionFailure ∧
    pdf m (some []) norm s = .error .numpyError := by
  constructor <;> simp [pdf, npHistogram]

/-! ## C8: the cases of ConvergenceMap.__add__ -/

/-- C8 counterexample to the claim as stated: adding the scalar number
`1` of Python type `int` raises `TypeError` (the code's scalar branch
tests `type(rhs) == np.float`, which an `int` fails), instead of
returning the elementwise sum the claim promises for scalar numbers. -/
theorem convAdd_int_scalar_cex :
    convAdd ⟨[[1]], 1⟩ (AddRhs.pyint 1) = none := by
  simp [convAdd]

/-- C8 amended: `__add__` succeeds exactly for (a) another map with equal
`side_angle` and `kappa` shape, (b) a scalar of exact Python type `float`
(an `int` scalar raises), or (c) a raw array of the same shape as
`kappa`; every other right-hand side raises; on success the result's
`kappa` is the elementwise sum and its `side_angle` is the left
operand's. -/
theorem convAdd_cases (m o : ConvergenceMap) (x : ℚ) (n : ℤ) (a : List (List ℚ)) :
    ((convAdd m (.map o)).isSome ↔
        (m.side_angle = o.side_angle ∧ npShape m.kappa = npShape o.kappa)) ∧
    (∀ r, convAdd m (.map o) = some r →
        r.kappa = elemAdd m.kappa o.kappa ∧ r.side_angle = m.side_angle) ∧
    convAdd m (.pyfloat x) = some ⟨m.kappa.map (List.map (· + x)), m.side_angle⟩ ∧
    convAdd m (.pyint n) = none ∧
    ((convAdd m (.arr a)).isSome ↔ npShape a = npShape m.kappa) ∧
    (∀ r, convAdd m (.arr a) = some r →
        r.kappa = elemAdd m.kappa a ∧ r.side_angle = m.side_angle) ∧
    convAdd m .other = none := by
  refine ⟨?_, ?_, rfl, rfl, ?_, ?_, rfl⟩
  · by_cases h : m.side_angle = o.side_angle ∧ npShape m.kappa = npShape o.kappa <;>
      simp [convAdd, h]
  · intro r hr
    by_cases h : m.side_angle = o.side_angle ∧ npShape m.kappa = npShape o.kappa <;>
      simp [convAdd, h] at hr
    exact ⟨by rw [← hr], by rw [← hr]; exact h.1.symm⟩
  · by_cases h : npShape a = npShape m.kappa <;> simp [convAdd, h]
  · intro r hr
    by_cases h : npShape a = npShape m.kappa <;> simp [convAdd, h] at hr
    exact ⟨by rw [← hr], by rw [← hr]⟩

/-- Witness for C8: on a concrete map, adding the map to itself succeeds
and doubles the values (the hypotheses of the success-value implication
are discharged at a concrete input). -/
theorem convAdd_cases_w :
    (⟨[[2]], 1⟩ : ConvergenceMap).kappa = elemAdd [[1]] [[1]] ∧
    (⟨[[2]], 1⟩ : ConvergenceMap).side_angle = (1 : ℚ) := by
  have h := (convAdd_cases ⟨[[1]], 1⟩ ⟨[[1]], 1⟩ 0 0 []).2.1 ⟨[[2]], 1⟩
  exact h (by norm_num [convAdd, npShape, elemAdd])

/-! ## C9: reparametrize (base class) and the FisherAnalysis override -/

/-- C9: the base-class `reparametrize` returns a new ensemble with the
transformation applied row-wise to the parameter block and the feature
block unchanged (the original is only copied, never mutated); but the
`FisherAnalysis` override discards the transformed copy and returns
Python `None` (it only re-runs `check()` on the unchanged self), so for
the Fisher subclass no reparametrized ensemble is ever returned. -/
theorem reparametrize_blocks_and_fisher_override {N P F : ℕ} (a : AnalysisE)
    (t : List ℚ → List ℚ) (fa : FisherAnalysis N P F) (tf : (Fin P → ℚ) → (Fin P → ℚ)) :
    (reparametrize a t).params = a.params.map t ∧
    (reparametrize a t).features = a.features ∧
    fisherReparametrize fa tf = (check fa).map (fun _ => ()) := by
  refine ⟨rfl, rfl, ?_⟩
  cases h : check fa <;> simp [fisherReparametrize, h]

/-! ## C5: connected moments differ from raw ones by the Gaussian terms -/

/-- C5: with `sigma0` the standard deviation of `kappa` and `sigma1` the
rms of the gradient magnitude, `moments(connected=True,
dimensionless=False)` agrees with `moments(connected=False,
dimensionless=False)` on the first five entries (sigma0, sigma1, S0, S1,
S2) and differs in the quartic entries by exactly `K0 -= 3 sigma0^4`,
`K1 += 3 sigma0^2 sigma1^2`, `K2 += sigma1^4`, `K3 -= 2 sigma1^4`. -/
theorem moments_connected_vs_raw (d : MapDerivatives) (sigma0 sigma1 : ℚ)
    (h00 : 0 ≤ sigma0) (h0v : sigma0 ^ 2 = variance d.kappa)
    (h10 : 0 ≤ sigma1) (h1v : sigma1 ^ 2 = meanQ (gradSq d)) :
    (moments d sigma0 sigma1 true false).take 5 =
      (moments d sigma0 sigma1 false false).take 5 ∧
    (moments d sigma0 sigma1 true false).getD 5 0 =
      (moments d sigma0 sigma1 false false).getD 5 0 - 3 * sigma0 ^ 4 ∧
    (moments d sigma0 sigma1 true false).getD 6 0 =
      (moments d sigma0 sigma1 false false).getD 6 0 + 3 * sigma0 ^ 2 * sigma1 ^ 2 ∧
    (moments d sigma0 sigma1 true false).getD 7 0 =
      (moments d sigma0 sigma1 false false).getD 7 0 + sigma1 ^ 4 ∧
    (moments d sigma0 sigma1 true false).getD 8 0 =
      (moments d sigma0 sigma1 false false).getD 8 0 - 2 * sigma1 ^ 4 := by
  simp [moments, List.take, List.getD]

/-! ## C3: the pdf density integrates to one -/

lemma binCounts_length (a : List ℚ) (es : List ℚ) :
    (binCounts a es).length = es.length - 1 := by
  induction es with
  | nil => rfl
  | cons lo tl ih =>
    cases tl with
    | nil => rfl
    | cons hi rest =>
      simp only [binCounts, List.length_cons] at ih ⊢
      omega

lemma binCounts_nil_sum (es : List ℚ) : (binCounts [] es).sum = 0 := by
  induction es with
  | nil => rfl
  | cons lo tl ih =>
    cases tl with
    | nil => rfl
    | cons hi rest =>
      simp only [binCounts, List.sum_cons, List.countP_nil] at ih ⊢
      split <;> simpa using ih

lemma binCounts_append (a b : List ℚ) (es : List ℚ) :
    (binCounts (a ++ b) es).sum = (binCounts a es).sum + (binCounts b es).sum := by
  induction es with
  | nil => rfl
  | cons lo tl ih =>
    cases tl with
    | nil => rfl
    | cons hi rest =>
      simp only [binCounts, List.sum_cons, List.countP_append] at ih ⊢
      split <;> omega

lemma binCounts_cons_cons (a : List ℚ) (lo hi : ℚ) (rest : List ℚ) :
    binCounts a (lo :: hi :: rest) =
      (if rest.isEmpty then a.countP (fun x => decide (lo ≤ x) && decide (x ≤ hi))
       else a.countP (fun x => decide (lo ≤ x) && decide (x < hi))) ::
        binCounts a (hi :: rest) := rfl

lemma binCounts_single_lt (x lo hi : ℚ) (rest : List ℚ)
    (hch : (lo :: hi :: rest).Chain' (· < ·)) (hx : x < lo) :
    (binCounts [x] (lo :: hi :: rest)).sum = 0 := by
  induction rest generalizing lo hi with
  | nil =>
      simp [binCounts, List.countP_cons, List.countP_nil, hx.not_le]
  | cons e rest2 ih =>
      rw [List.chain'_cons] at hch
      rw [binCounts_cons_cons, List.sum_cons, ih hi e hch.2 (hx.trans hch.1)]
      simp [List.countP_cons, List.countP_nil, hx.not_le]

lemma binCounts_single_mem (x lo hi : ℚ) (rest : List ℚ)
    (hch : (lo :: hi :: rest).Chain' (· < ·)) (hlo : lo ≤ x)
    (hhi : x ≤ (lo :: hi :: rest).getLast?.getD 0) :
    (binCounts [x] (lo :: hi :: rest)).sum = 1 := by
  induction rest generalizing lo hi with
  | nil =>
      have hx : x ≤ hi := by simpa [List.getLast?_cons_cons] using hhi
      simp [binCounts, List.countP_cons, List.countP_nil, hlo, hx]
  | cons e rest2 ih =>
      rw [List.getLast?_cons_cons] at hhi
      rw [List.chain'_cons] at hch
      by_cases hxhi : x < hi
      · rw [binCounts_cons_cons, List.sum_cons,
          binCounts_single_lt x hi e rest2 hch.2 hxhi]
        simp [List.countP_cons, List.countP_nil, hlo, hxhi]
      · rw [binCounts_cons_cons, List.sum_cons, ih hi e hch.2 (not_lt.mp hxhi) hhi]
        simp [List.countP_cons, List.countP_nil, hxhi]

lemma binCounts_sum_length (a : List ℚ) (lo hi : ℚ) (rest : List ℚ)
    (hch : (lo :: hi :: rest).Chain' (· < ·))
    (hcov : ∀ x ∈ a, lo ≤ x ∧ x ≤ (lo :: hi :: rest).getLast?.getD 0) :
    (binCounts a (lo :: hi :: rest)).sum = a.length := by
  induction a with
  | nil => simpa using binCounts_nil_sum (lo :: hi :: rest)
  | cons y ys ih =>
      have hsplit : (binCounts (y :: ys) (lo :: hi :: rest)).sum =
          (binCounts [y] (lo :: hi :: rest)).sum + (binCounts ys (lo :: hi :: rest)).sum := by
        simpa using binCounts_append [y] ys (lo :: hi :: rest)
      have hy := hcov y (by simp)
      rw [hsplit, binCounts_single_mem y lo hi rest hch hy.1 hy.2,
        ih (fun x hx => hcov x (by simp [hx]))]
      simp only [List.length_cons]
      omega

lemma density_dot_widths (sigma T : ℚ) (hs : sigma ≠ 0) (hT : T ≠ 0)
    (ts : List ℚ) (cs : List ℕ) (hlen : cs.length + 1 = ts.length)
    (hch : (ts.map (· * sigma)).Chain' (· < ·)) :
    (List.zipWith (· * ·)
      ((List.zipWith (fun (c : ℕ) w => (c : ℚ) / (T * w)) cs
          (binWidths (ts.map (· * sigma)))).map (· * sigma))
      (binWidths ts)).sum = (cs.sum : ℚ) / T := by
  induction cs generalizing ts with
  | nil =>
      simp
  | cons c cs2 ih =>
      match ts with
      | t0 :: t1 :: rest =>
        simp only [List.map_cons, List.chain'_cons] at hch
        have hw : t1 * sigma - t0 * sigma ≠ 0 := sub_ne_zero.mpr (ne_of_gt hch.1)
        have hw2 : t1 - t0 ≠ 0 := by
          intro h
          apply hw
          have : t1 = t0 := by linarith [sub_eq_zero.mp h]
          rw [this]
          ring
        have htail := ih (t1 :: rest) (by simpa using hlen) hch.2
        simp only [binWidths, List.map_cons, List.tail_cons, List.zipWith_cons_cons,
          List.sum_cons, List.sum_nil] at htail ⊢
        rw [htail]
        have hhead : (c : ℚ) / (T * (t1 * sigma - t0 * sigma)) * sigma * (t1 - t0) =
            (c : ℚ) / T := by
          rw [show t1 * sigma - t0 * sigma = (t1 - t0) * sigma by ring]
          field_simp
          ring
        rw [hhead]
        push_cast
        rw [add_div]

/-- C3 amended: for a nonempty field and a threshold sequence of length at
least 2 whose *scaled* bin edges (`thresholds * sigma`, with `sigma` the
map standard deviation when `norm` and 1 otherwise) are strictly
increasing and cover the field's value range, `pdf` returns the pairwise
averages of consecutive thresholds as midpoints and a density whose dot
product with the threshold bin widths is exactly 1, for both values of
`norm`. -/
theorem pdf_density_integrates (m : ConvergenceMap) (ts : List ℚ) (norm : Bool)
    (sigmaStd : ℚ) (h2 : 2 ≤ ts.length) (hne : m.kappa.flatten ≠ [])
    (hs0 : 0 ≤ sigmaStd) (hsv : sigmaStd ^ 2 = variance m.kappa.flatten)
    (hch : (ts.map (· * (if norm then sigmaStd else 1))).Chain' (· < ·))
    (hcov : ∀ x ∈ m.kappa.flatten,
        (ts.map (· * (if norm then sigmaStd else 1))).headI ≤ x ∧
        x ≤ (ts.map (· * (if norm then sigmaStd else 1))).getLast?.getD 0) :
    ∃ dens, pdf m (some ts) norm sigmaStd =
        .ok (List.zipWith (fun a b => (a + b) / 2) ts ts.tail, dens) ∧
      (List.zipWith (· * ·) dens (binWidths ts)).sum = 1 := by
  match ts, h2 with
  | t0 :: t1 :: rest, _ =>
  set sig : ℚ := if norm then sigmaStd else 1 with hsig
  have hchain : ((t0 :: t1 :: rest).map (· * sig)).Chain' (· < ·) := hch
  have hs : sig ≠ 0 := by
    rcases norm with _ | _
    · simp [hsig]
    · simp only [List.map_cons, List.chain'_cons] at hchain
      intro h0
      rw [hsig] at h0
      simp only [if_true] at h0
      have := hchain.1
      rw [show sig = sigmaStd by simp [hsig]] at this
      rw [h0] at this
      simp at this
  set a := m.kappa.flatten with ha
  have hcount : (binCounts a ((t0 :: t1 :: rest).map (· * sig))).sum = a.length := by
    have := binCounts_sum_length a (t0 * sig) (t1 * sig) (rest.map (· * sig))
      (by simpa using hchain)
      (fun x hx => by
        have := hcov x hx
        simpa using this)
    simpa using this
  have hAlen : ((a.length : ℚ)) ≠ 0 := by
    exact_mod_cast (fun h => hne (List.length_eq_zero.mp h) : a.length ≠ 0)
  have hTne : ((binCounts a ((t0 :: t1 :: rest).map (· * sig))).sum : ℚ) ≠ 0 := by
    rw [hcount]
    exact hAlen
  refine ⟨(histDensity a ((t0 :: t1 :: rest).map (· * sig))).map (· * sig), ?_, ?_⟩
  · simp only [pdf, npHistogram, List.map_cons, List.isEmpty_cons]
    rfl
  · have := density_dot_widths sig ((binCounts a ((t0 :: t1 :: rest).map (· * sig))).sum : ℚ)
      hs hTne (t0 :: t1 :: rest) (binCounts a ((t0 :: t1 :: rest).map (· * sig)))
      (by rw [binCounts_length]; simp) hchain
    rw [histDensity]
    rw [this, hcount]
    exact div_self hAlen

/-- C3 counterexample to the claim as stated: the field `[[10, 14]]` has
standard deviation 2; the thresholds `[10, 14]` are strictly increasing
and cover the field's value range, yet with `norm = True` the histogram
bins are `[20, 28]`, no value falls in them, and the returned density
sums (against the threshold bin widths) to 0, not 1. -/
theorem pdf_density_cex :
    (0 : ℚ) ≤ 2 ∧
    (2 : ℚ) ^ 2 = variance ([[10, 14]] : List (List ℚ)).flatten ∧
    ([10, 14] : List ℚ).Chain' (· < ·) ∧
    (∀ x ∈ ([[10, 14]] : List (List ℚ)).flatten, (10 : ℚ) ≤ x ∧ x ≤ 14) ∧
    ∃ dens, pdf ⟨[[10, 14]], 1⟩ (some [10, 14]) true 2 =
        .ok (midpoints [10, 14], dens) ∧
      (List.zipWith (· * ·) dens (binWidths [10, 14])).sum = 0 := by
  refine ⟨by norm_num, by norm_num [variance, meanQ], ?_, by norm_num, ?_⟩
  · simp [List.chain'_cons]
    norm_num
  · refine ⟨(histDensity [10, 14] [20, 28]).map (· * 2), ?_, ?_⟩
    · show pdf ⟨[[10, 14]], 1⟩ (some [10, 14]) true 2 = _
      simp only [pdf, npHistogram, List.flatten]
      norm_num
    · norm_num [histDensity, binCounts, binWidths, List.countP_cons, List.countP_nil]

/-- Witness for C5 at a concrete input (sigma0 = sigma1 = 1). -/
theorem moments_connected_vs_raw_w :
    (moments exDeriv 1 1 true false).take 5 =
      (moments exDeriv 1 1 false false).take 5 ∧
    (moments exDeriv 1 1 true false).getD 5 0 =
      (moments exDeriv 1 1 false false).getD 5 0 - 3 * (1 : ℚ) ^ 4 ∧
    (moments exDeriv 1 1 true false).getD 6 0 =
      (moments exDeriv 1 1 false false).getD 6 0 + 3 * (1 : ℚ) ^ 2 * (1 : ℚ) ^ 2 ∧
    (moments exDeriv 1 1 true false).getD 7 0 =
      (moments exDeriv 1 1 false false).getD 7 0 + (1 : ℚ) ^ 4 ∧
    (moments exDeriv 1 1 true false).getD 8 0 =
      (moments exDeriv 1 1 false false).getD 8 0 - 2 * (1 : ℚ) ^ 4 :=
  moments_connected_vs_raw exDeriv 1 1 (by norm_num)
    (by norm_num [variance, meanQ, exDeriv]) (by norm_num)
    (by norm_num [meanQ, gradSq, exDeriv])

/-- Witness for C3 at a concrete input: a four-pixel map with standard
deviation 1, thresholds `[-1, 0, 1]`, `norm = True`. -/
theorem pdf_density_integrates_w :
    ∃ dens, pdf ⟨[[1, -1, 1, -1]], 1⟩ (some [-1, 0, 1]) true 1 =
        .ok (List.zipWith (fun a b => (a + b) / 2) [-1, 0, 1] ([-1, 0, 1] : List ℚ).tail, dens) ∧
      (List.zipWith (· * ·) dens (binWidths [-1, 0, 1])).sum = 1 :=
  pdf_density_integrates ⟨[[1, -1, 1, -1]], 1⟩ [-1, 0, 1] true 1 (by norm_num)
    (by simp [List.flatten]) (by norm_num) (by norm_num [variance, meanQ])
    (by norm_num [List.chain'_cons])
    (by intro x hx; simp only [List.flatten] at hx; norm_num at hx ⊢ <;>
          rcases hx with h | h | h | h <;> norm_num [h, List.headI])

/-! ## C1: compute_derivatives is the one-sided finite difference -/

lemma two_le_length_of_mem {α : Type} {l : List α} {a b : α} (ha : a ∈ l) (hb : b ∈ l)
    (hab : a ≠ b) : 2 ≤ l.length := by
  match l with
  | [] => cases ha
  | [x] =>
      simp only [List.mem_singleton] at ha hb
      rw [ha, hb] at hab
      exact absurd rfl hab
  | x :: y :: t => simp only [List.length_cons]; omega

lemma mem_variationPairs {N P F : ℕ} (fa : FisherAnalysis N P F) (x : Fin N × Fin P) :
    x ∈ variationPairs fa ↔ variesB fa x.1 x.2 = true := by
  constructor
  · intro h
    exact (List.mem_filter.mp h).2
  · intro h
    refine List.mem_filter.mpr ⟨?_, h⟩
    refine List.mem_flatMap.mpr ⟨x.1, List.mem_finRange _, ?_⟩
    exact List.mem_map.mpr ⟨x.2, List.mem_finRange _, rfl⟩

lemma varies_unique {N P F : ℕ} (fa : FisherAnalysis N P F) (p : Fin P)
    (hcol : colVariations fa p < 2) {i i' : Fin N}
    (hi : variesB fa i p = true) (hi' : variesB fa i' p = true) : i = i' := by
  by_contra hne
  have h1 : i ∈ (List.finRange N).filter (fun i => variesB fa i p) :=
    List.mem_filter.mpr ⟨List.mem_finRange _, hi⟩
  have h2 : i' ∈ (List.finRange N).filter (fun i => variesB fa i p) :=
    List.mem_filter.mpr ⟨List.mem_finRange _, hi'⟩
  have := two_le_length_of_mem h1 h2 hne
  rw [colVariations] at hcol
  omega

lemma foldl_loc_of_not_mem {N P : ℕ} (p : Fin P) (l : List (Fin N × Fin P))
    (acc : Option (Fin N)) (h : ∀ x ∈ l, x.2 ≠ p) :
    l.foldl (fun acc ij => if ij.2 = p then some ij.1 else acc) acc = acc := by
  induction l generalizing acc with
  | nil => rfl
  | cons x xs ih =>
      rw [List.foldl_cons, if_neg (h x (by simp))]
      exact ih acc (fun y hy => h y (by simp [hy]))

lemma foldl_loc_of_unique {N P : ℕ} (p : Fin P) (i : Fin N) (l : List (Fin N × Fin P))
    (hall : ∀ x ∈ l, x.2 = p → x.1 = i) :
    ∀ acc, ((i, p) ∈ l ∨ acc = some i) →
      l.foldl (fun acc ij => if ij.2 = p then some ij.1 else acc) acc = some i := by
  induction l with
  | nil =>
      intro acc h
      rcases h with h | h
      · cases h
      · simpa using h
  | cons x xs ih =>
      intro acc h
      rw [List.foldl_cons]
      apply ih (fun y hy hyp => hall y (by simp [hy]) hyp)
      rcases h with h | h
      · rcases List.mem_cons.mp h with h | h
        · right
          cases h
          simp
        · left
          exact h
      · right
        by_cases hx : x.2 = p
        · rw [if_pos hx, hall x (by simp) hx]
        · rw [if_neg hx]
          exact h

lemma whereLoc_eq_some {N P F : ℕ} (fa : FisherAnalysis N P F) (p : Fin P) (i : Fin N)
    (hcol : colVariations fa p < 2) (hi : variesB fa i p = true) :
    whereLoc fa p = some i := by
  apply foldl_loc_of_unique p i (variationPairs fa)
  · intro x hx hxp
    have hvx := (mem_variationPairs fa x).mp hx
    rw [hxp] at hvx
    exact varies_unique fa p hcol hvx hi
  · exact Or.inl ((mem_variationPairs fa (i, p)).mpr hi)

lemma whereLoc_eq_none {N P F : ℕ} (fa : FisherAnalysis N P F) (p : Fin P)
    (h : ∀ i, variesB fa i p = false) : whereLoc fa p = none := by
  apply foldl_loc_of_not_mem
  intro x hx hxp
  have hvx := (mem_variationPairs fa x).mp hx
  rw [hxp, h x.1] at hvx
  cases hvx

lemma mem_varied {N P F : ℕ} (fa : FisherAnalysis N P F) (p : Fin P) :
    p ∈ varied fa ↔ (whereLoc fa p).isSome := by
  simp [varied, List.mem_filter, List.mem_finRange]

lemma check_zero_col {N P F : ℕ} (fa : FisherAnalysis N P F) (h : check fa = some 0) :
    ∀ j, colVariations fa j < 2 := by
  by_cases h1 : ∀ i, rowVariations fa i < 2
  · by_cases h2 : ∀ j, colVariations fa j < 2
    · exact h2
    · rw [check, if_pos h1, if_neg h2] at h
      exact absurd h (by simp)
  · rw [check, if_neg h1] at h
    cases h

/-- C1: for an analysis with at least 2 rows and `check() == 0`, if row
`i` varies parameter `p` then `compute_derivatives()` succeeds and its row
for `p` is the one-sided finite difference
`(feature_set[i] - feature_set[fid]) / (parameter_set[i, p] -
parameter_set[fid, p])`, as a `(number of varied parameters) × F`
array. -/
theorem compute_derivatives_one_sided {N P F : ℕ} (fa : FisherAnalysis N P F)
    (hN : 1 < N) (hchk : check fa = some 0) (i : Fin N) (p : Fin P)
    (hv : variesB fa i p = true) :
    ∃ D, compute_derivatives fa = some D ∧
      ∃ n : Fin (varied fa).length, (varied fa).get n = p ∧
        ∀ j, D n j = (fa.feature_set i j - fa.feature_set fa.fid j) /
          (fa.parameter_set i p - fa.parameter_set fa.fid p) := by
  have hcol := check_zero_col fa hchk
  have hloc : whereLoc fa p = some i := whereLoc_eq_some fa p i (hcol p) hv
  have hmem : p ∈ varied fa := (mem_varied fa p).mpr (by rw [hloc]; rfl)
  obtain ⟨n, hn⟩ := List.mem_iff_get.mp hmem
  refine ⟨derivativesMatrix fa, by rw [compute_derivatives, if_pos ⟨hN, hchk⟩], n, hn, ?_⟩
  intro j
  simp only [derivativesMatrix]
  rw [hn, hloc]

/-- Witness for C1 at a concrete input. -/
theorem compute_derivatives_one_sided_w :
    ∃ D, compute_derivatives exFA1 = some D ∧
      ∃ n : Fin (varied exFA1).length, (varied exFA1).get n = (0 : Fin 2) ∧
        ∀ j, D n j = (exFA1.feature_set 1 j - exFA1.feature_set exFA1.fid j) /
          (exFA1.parameter_set 1 0 - exFA1.parameter_set exFA1.fid 0) :=
  compute_derivatives_one_sided exFA1 (by norm_num) (by decide) 1 0 (by decide)

/-! ## C10: classify restores the fiducial index -/

/-- C10: whenever `classify` returns normally, the stored fiducial index
of the returned analysis state equals its value before the call: the
temporary `set_fiducial(l)` calls made to evaluate the per-label chi2 are
undone by the final `set_fiducial(fiducial_original)`. -/
theorem classify_restores_fiducial {N P F : ℕ} (fa : FisherAnalysis N P F)
    (observed : List (Fin F → ℚ)) (cov : Covariance F) (labels : List ℕ)
    (confusion : Bool) (out : FisherAnalysis N P F × ClassifyResult)
    (h : classify fa observed cov labels confusion = some out) :
    out.1.fid = fa.fid := by
  rw [classify] at h
  split at h
  · cases h
  · split at h
    · cases h
    · rename_i st faFinal hsf
      have hfid : faFinal.fid = fa.fid := by
        rw [set_fiducial] at hsf
        split at hsf
        · cases hsf
          exact Fin.ext rfl
        · cases hsf
      split at h <;> (cases h; simpa using hfid)

/-- Witness for C10 at a concrete input: classifying one observation with
labels `[0, 1]` (the fiducial index is temporarily set to 1 during the
loop) returns with the fiducial index restored to 0. -/
theorem classify_restores_fiducial_w :
    ((⟨!![0; 1], !![0; 1], 0⟩, ClassifyResult.labels [0]) :
        FisherAnalysis 2 1 1 × ClassifyResult).1.fid = exFA10.fid :=
  classify_restores_fiducial exFA10 [fun _ => 0] (Covariance.diag (fun _ => 1)) [0, 1] false
    (⟨!![0; 1], !![0; 1], 0⟩, ClassifyResult.labels [0])
    (by norm_num [classify, exFA10, List.foldlM, set_fiducial, fisherChi2, listArgmin,
      argminAux, Fin.sum_univ_one, List.range_succ, Fin.mk_zero, Fin.mk_one,
      Matrix.cons_val_zero, Matrix.cons_val_one, Matrix.head_cons, Matrix.cons_val_fin_one])

/-! ## C2: fit recovers the exact parameters in the noiseless linear case -/

lemma filter_eq_singleton {α : Type} (l : List α) (hl : l.Nodup) (a : α)
    (ha : a ∈ l) (p : α → Bool) (hp : ∀ x ∈ l, p x = true ↔ x = a) : l.filter p = [a] := by
  induction l with
  | nil => cases ha
  | cons x xs ih =>
      rw [List.nodup_cons] at hl
      by_cases hx : p x = true
      · have hxa : x = a := (hp x (by simp)).mp hx
        subst hxa
        rw [List.filter_cons_of_pos hx]
        have hnil : xs.filter p = [] := by
          rw [List.filter_eq_nil_iff]
          intro y hy hpy
          exact hl.1 (((hp y (by simp [hy])).mp hpy) ▸ hy)
        rw [hnil]
      · rw [List.filter_cons_of_neg (by simpa using hx)]
        rcases List.mem_cons.mp ha with h | h
        · exact absurd ((hp x (by simp)).mpr h.symm) hx
        · exact ih hl.2 h (fun y hy => hp y (by simp [hy]))

lemma twoRow_variesB_iff {P F : ℕ} (p0 : Fin P → ℚ) (q : Fin P) (d : ℚ) (f0 Df : Fin F → ℚ)
    (hd : d ≠ 0) (i : Fin 2) (j : Fin P) :
    variesB (twoRowFA P F p0 q d f0 Df) i j = true ↔ (i = 1 ∧ j = q) := by
  have h10 : (1 : Fin 2) ≠ 0 := by decide
  have h01 : (0 : Fin 2) ≠ 1 := by decide
  by_cases hi : i = 0
  · subst hi
    simp [variesB, twoRowFA, h01]
  · have hi1 : i = 1 := by
      have h2 := i.isLt
      have hv : i.val ≠ 0 := fun h => hi (Fin.ext h)
      apply Fin.ext
      omega
    subst hi1
    by_cases hj : j = q
    · simp [variesB, twoRowFA, h10, hj, hd]
    · simp [variesB, twoRowFA, h10, hj]

lemma twoRow_rowV {P F : ℕ} (p0 : Fin P → ℚ) (q : Fin P) (d : ℚ) (f0 Df : Fin F → ℚ)
    (hd : d ≠ 0) (i : Fin 2) : rowVariations (twoRowFA P F p0 q d f0 Df) i < 2 := by
  by_cases hi : i = 0
  · subst hi
    rw [rowVariations, List.filter_eq_nil_iff.mpr]
    · norm_num
    · intro j _ hj
      have := (twoRow_variesB_iff p0 q d f0 Df hd 0 j).mp hj
      simp at this
  · have hi1 : i = 1 := by
      have h2 := i.isLt
      have hv : i.val ≠ 0 := fun h => hi (Fin.ext h)
      apply Fin.ext
      omega
    subst hi1
    rw [rowVariations, filter_eq_singleton _ (List.nodup_finRange P) q (List.mem_finRange q)]
    · norm_num
    · intro j _
      rw [twoRow_variesB_iff p0 q d f0 Df hd 1 j]
      simp

lemma twoRow_colV {P F : ℕ} (p0 : Fin P → ℚ) (q : Fin P) (d : ℚ) (f0 Df : Fin F → ℚ)
    (hd : d ≠ 0) (j : Fin P) : colVariations (twoRowFA P F p0 q d f0 Df) j < 2 := by
  by_cases hj : j = q
  · rw [colVariations, filter_eq_singleton _ (List.nodup_finRange 2) 1 (List.mem_finRange 1)]
    · norm_num
    · intro i _
      rw [twoRow_variesB_iff p0 q d f0 Df hd i j]
      simp [hj]
  · rw [colVariations, List.filter_eq_nil_iff.mpr]
    · norm_num
    · intro i _ hi
      exact hj ((twoRow_variesB_iff p0 q d f0 Df hd i j).mp hi).2

lemma twoRow_check {P F : ℕ} (p0 : Fin P → ℚ) (q : Fin P) (d : ℚ) (f0 Df : Fin F → ℚ)
    (hd : d ≠ 0) : check (twoRowFA P F p0 q d f0 Df) = some 0 := by
  rw [check, if_pos (twoRow_rowV p0 q d f0 Df hd), if_pos (twoRow_colV p0 q d f0 Df hd)]

lemma twoRow_whereLoc_q {P F : ℕ} (p0 : Fin P → ℚ) (q : Fin P) (d : ℚ) (f0 Df : Fin F → ℚ)
    (hd : d ≠ 0) : whereLoc (twoRowFA P F p0 q d f0 Df) q = some 1 :=
  whereLoc_eq_some _ q 1 (twoRow_colV p0 q d f0 Df hd q)
    ((twoRow_variesB_iff p0 q d f0 Df hd 1 q).mpr ⟨rfl, rfl⟩)

lemma twoRow_varied {P F : ℕ} (p0 : Fin P → ℚ) (q : Fin P) (d : ℚ) (f0 Df : Fin F → ℚ)
    (hd : d ≠ 0) : varied (twoRowFA P F p0 q d f0 Df) = [q] := by
  apply filter_eq_singleton _ (List.nodup_finRange P) q (List.mem_finRange q)
  intro p _
  constructor
  · intro h
    by_contra hne
    rw [whereLoc_eq_none _ p (fun i => by
      rw [Bool.eq_false_iff]
      exact fun h' => hne ((twoRow_variesB_iff p0 q d f0 Df hd i p).mp h').2)] at h
    cases h
  · intro h
    rw [h, twoRow_whereLoc_q p0 q d f0 Df hd]
    rfl

lemma twoRow_get {P F : ℕ} (p0 : Fin P → ℚ) (q : Fin P) (d : ℚ) (f0 Df : Fin F → ℚ)
    (hd : d ≠ 0) (n : Fin (varied (twoRowFA P F p0 q d f0 Df)).length) :
    (varied (twoRowFA P F p0 q d f0 Df)).get n = q := by
  have hall : ∀ x ∈ varied (twoRowFA P F p0 q d f0 Df), x = q := by
    rw [twoRow_varied p0 q d f0 Df hd]
    simp
  exact hall _ (List.get_mem (varied (twoRowFA P F p0 q d f0 Df)) n.1 n.2)

lemma twoRow_deriv {P F : ℕ} (p0 : Fin P → ℚ) (q : Fin P) (d : ℚ) (f0 Df : Fin F → ℚ)
    (hd : d ≠ 0) (n : Fin (varied (twoRowFA P F p0 q d f0 Df)).length) (j : Fin F) :
    derivativesMatrix (twoRowFA P F p0 q d f0 Df) n j = Df j / d := by
  simp only [derivativesMatrix]
  rw [twoRow_get p0 q d f0 Df hd n, twoRow_whereLoc_q p0 q d f0 Df hd]
  show ((twoRowFA P F p0 q d f0 Df).feature_set 1 j -
      (twoRowFA P F p0 q d f0 Df).feature_set 0 j) /
    ((twoRowFA P F p0 q d f0 Df).parameter_set 1 q -
      (twoRowFA P F p0 q d f0 Df).parameter_set 0 q) = Df j / d
  simp only [twoRowFA, Fin.ext_iff]
  norm_num

lemma twoRow_compute_derivatives {P F : ℕ} (p0 : Fin P → ℚ) (q : Fin P) (d : ℚ)
    (f0 Df : Fin F → ℚ) (hd : d ≠ 0) :
    compute_derivatives (twoRowFA P F p0 q d f0 Df) =
      some (derivativesMatrix (twoRowFA P F p0 q d f0 Df)) := by
  rw [compute_derivatives, if_pos]
  exact ⟨one_lt_two, twoRow_check p0 q d f0 Df hd⟩

lemma twoRow_Y_full {P F : ℕ} (p0 : Fin P → ℚ) (q : Fin P) (d : ℚ) (f0 Df : Fin F → ℚ)
    (hd : d ≠ 0) (C : Matrix (Fin F) (Fin F) ℚ) (j : Fin F)
    (n : Fin (varied (twoRowFA P F p0 q d f0 Df)).length) :
    (invMat C * (derivativesMatrix (twoRowFA P F p0 q d f0 Df)).transpose) j n =
      (∑ k, invMat C j k * Df k) / d := by
  rw [Matrix.mul_apply]
  have h1 : ∀ k : Fin F, invMat C j k *
      (derivativesMatrix (twoRowFA P F p0 q d f0 Df)).transpose k n =
      (invMat C j k * Df k) / d := by
    intro k
    rw [Matrix.transpose_apply, twoRow_deriv p0 q d f0 Df hd]
    ring
  rw [Finset.sum_congr rfl (fun k _ => h1 k), ← Finset.sum_div]

lemma twoRow_XY_full {P F : ℕ} (p0 : Fin P → ℚ) (q : Fin P) (d : ℚ) (f0 Df : Fin F → ℚ)
    (hd : d ≠ 0) (C : Matrix (Fin F) (Fin F) ℚ)
    (n m : Fin (varied (twoRowFA P F p0 q d f0 Df)).length) :
    (derivativesMatrix (twoRowFA P F p0 q d f0 Df) *
      (invMat C * (derivativesMatrix (twoRowFA P F p0 q d f0 Df)).transpose)) n m =
      quadForm C Df / d ^ 2 := by
  rw [Matrix.mul_apply]
  have h1 : ∀ jj : Fin F, derivativesMatrix (twoRowFA P F p0 q d f0 Df) n jj *
      (invMat C * (derivativesMatrix (twoRowFA P F p0 q d f0 Df)).transpose) jj m =
      (Df jj * ∑ k, invMat C jj k * Df k) / d ^ 2 := by
    intro jj
    rw [twoRow_deriv p0 q d f0 Df hd, twoRow_Y_full p0 q d f0 Df hd C]
    ring
  rw [Finset.sum_congr rfl (fun jj _ => h1 jj), ← Finset.sum_div, quadForm]

/-- The generalized-least-squares tail of `fit` on the two-row analysis:
for any `Y` whose columns are all `y / d`, if `Δ · y ≠ 0` the normal
equations solve succeeds and the parameter update is exactly `d`. -/
lemma twoRow_fit_tail {P F : ℕ} (p0 : Fin P → ℚ) (q : Fin P) (d : ℚ) (f0 Df : Fin F → ℚ)
    (hd : d ≠ 0)
    (Y : Matrix (Fin F) (Fin (varied (twoRowFA P F p0 q d f0 Df)).length) ℚ)
    (y : Fin F → ℚ) (hY : ∀ j n, Y j n = y j / d)
    (ht : (∑ j, Df j * y j) ≠ 0) :
    npSolve (derivativesMatrix (twoRowFA P F p0 q d f0 Df) * Y) Y.transpose =
      some (invMat (derivativesMatrix (twoRowFA P F p0 q d f0 Df) * Y) * Y.transpose) ∧
    ∀ n, (twoRowFA P F p0 q d f0 Df).parameter_set (twoRowFA P F p0 q d f0 Df).fid
        ((varied (twoRowFA P F p0 q d f0 Df)).get n) +
      (invMat (derivativesMatrix (twoRowFA P F p0 q d f0 Df) * Y) * Y.transpose).mulVec
        (fun j => (f0 j + Df j) - (twoRowFA P F p0 q d f0 Df).feature_set
          (twoRowFA P F p0 q d f0 Df).fid j) n = p0 q + d := by
  haveI : Subsingleton (Fin (varied (twoRowFA P F p0 q d f0 Df)).length) :=
    Fin.subsingleton_iff_le_one.mpr
      (by rw [twoRow_varied p0 q d f0 Df hd]; exact Nat.le_refl 1)
  haveI : Unique (Fin (varied (twoRowFA P F p0 q d f0 Df)).length) :=
    uniqueOfSubsingleton
      ⟨0, by rw [twoRow_varied p0 q d f0 Df hd]; exact Nat.zero_lt_one⟩
  have hXY : ∀ n m, (derivativesMatrix (twoRowFA P F p0 q d f0 Df) * Y) n m =
      (∑ j, Df j * y j) / d ^ 2 := by
    intro n m
    rw [Matrix.mul_apply]
    have h1 : ∀ j, derivativesMatrix (twoRowFA P F p0 q d f0 Df) n j * Y j m =
        (Df j * y j) / d ^ 2 := by
      intro j
      rw [twoRow_deriv p0 q d f0 Df hd, hY]
      ring
    rw [Finset.sum_congr rfl (fun j _ => h1 j), ← Finset.sum_div]
  have hdet : (derivativesMatrix (twoRowFA P F p0 q d f0 Df) * Y).det =
      (∑ j, Df j * y j) / d ^ 2 := by
    rw [Matrix.det_unique, hXY]
  have hdetne : (derivativesMatrix (twoRowFA P F p0 q d f0 Df) * Y).det ≠ 0 := by
    rw [hdet]
    exact div_ne_zero ht (pow_ne_zero 2 hd)
  refine ⟨by rw [npSolve, if_neg hdetne], ?_⟩
  intro n
  have hMval : ∀ j, (invMat (derivativesMatrix (twoRowFA P F p0 q d f0 Df) * Y) *
      Y.transpose) n j = ((∑ i, Df i * y i) / d ^ 2)⁻¹ * (y j / d) := by
    intro j
    rw [Matrix.mul_apply, Fintype.sum_unique
      (fun m => (invMat (derivativesMatrix (twoRowFA P F p0 q d f0 Df) * Y)) n m *
        Y.transpose m j)]
    rw [Matrix.transpose_apply, hY, invMat, Matrix.adjugate_subsingleton,
      Matrix.smul_apply, Matrix.one_apply, if_pos (Subsingleton.elim _ _), hdet]
    rw [smul_eq_mul]
    ring
  have hdvj : ∀ j, (f0 j + Df j) - (twoRowFA P F p0 q d f0 Df).feature_set
      (twoRowFA P F p0 q d f0 Df).fid j = Df j := by
    intro j
    show (f0 j + Df j) - (if (0 : Fin 2) = 0 then f0 j else f0 j + Df j) = Df j
    rw [if_pos rfl]
    ring
  have hpq : (twoRowFA P F p0 q d f0 Df).parameter_set (twoRowFA P F p0 q d f0 Df).fid
      ((varied (twoRowFA P F p0 q d f0 Df)).get n) = p0 q := by
    rw [twoRow_get p0 q d f0 Df hd n]
    show (if (0 : Fin 2) = 0 then p0 q else p0 q + (if q = q then d else 0)) = p0 q
    rw [if_pos rfl]
  have hmv : (invMat (derivativesMatrix (twoRowFA P F p0 q d f0 Df) * Y) *
      Y.transpose).mulVec (fun j => (f0 j + Df j) - (twoRowFA P F p0 q d f0 Df).feature_set
        (twoRowFA P F p0 q d f0 Df).fid j) n = d := by
    simp only [Matrix.mulVec, Matrix.dotProduct]
    have h2 : ∀ j, (invMat (derivativesMatrix (twoRowFA P F p0 q d f0 Df) * Y) *
        Y.transpose) n j * ((f0 j + Df j) - (twoRowFA P F p0 q d f0 Df).feature_set
          (twoRowFA P F p0 q d f0 Df).fid j) =
        ((∑ i, Df i * y i) / d ^ 2)⁻¹ / d * (Df j * y j) := by
      intro j
      rw [hMval j, hdvj j]
      ring
    rw [Finset.sum_congr rfl (fun j _ => h2 j), ← Finset.mul_sum, inv_div]
    field_simp
    ring
  rw [hpq, hmv]

/-- C2 amended: for the two-row analysis `[(p0, f0), (p0 + d·e_q,
f0 + Δ)]` with `d ≠ 0` and a features covariance that is either diagonal
positive (with `Δ ≠ 0`) or full invertible with `Δ·C⁻¹·Δ ≠ 0` (as for
any symmetric positive-definite covariance and `Δ ≠ 0`),
`fit(f0 + Δ, covariance)` returns exactly `p0 + d` for the varied
parameter. -/
theorem fisher_fit_exact {P F : ℕ} (p0 : Fin P → ℚ) (q : Fin P) (d : ℚ) (f0 Df : Fin F → ℚ)
    (cov : Covariance F) (hd : d ≠ 0) (hcov : covFitOK cov Df) :
    ∃ r, fit (twoRowFA P F p0 q d f0 Df) (fun j => f0 j + Df j) cov = some r ∧
      ∀ n, r n = p0 q + d := by
  rcases cov with C | c
  · obtain ⟨hdet, hquad⟩ := hcov
    have htail := twoRow_fit_tail p0 q d f0 Df hd
      (invMat C * (derivativesMatrix (twoRowFA P F p0 q d f0 Df)).transpose)
      (fun j => ∑ k, invMat C j k * Df k)
      (fun j n => twoRow_Y_full p0 q d f0 Df hd C j n)
      hquad
    have hYeq : npSolve C (derivativesMatrix (twoRowFA P F p0 q d f0 Df)).transpose =
        some (invMat C * (derivativesMatrix (twoRowFA P F p0 q d f0 Df)).transpose) := by
      rw [npSolve, if_neg hdet]
    refine ⟨_, ?_, fun n => htail.2 n⟩
    simp only [fit, twoRow_compute_derivatives p0 q d f0 Df hd, hYeq, htail.1]
  · obtain ⟨hc, hDf⟩ := hcov
    have htpos : (0 : ℚ) < ∑ j, Df j * (Df j / c j) := by
      obtain ⟨j0, hj0⟩ := Function.ne_iff.mp hDf
      rw [Pi.zero_apply] at hj0
      apply Finset.sum_pos'
      · intro i _
        rw [show Df i * (Df i / c i) = Df i ^ 2 / c i from by ring]
        exact div_nonneg (sq_nonneg _) (le_of_lt (hc i))
      · refine ⟨j0, Finset.mem_univ _, ?_⟩
        rw [show Df j0 * (Df j0 / c j0) = Df j0 ^ 2 / c j0 from by ring]
        exact div_pos ((sq_nonneg (Df j0)).lt_of_ne (Ne.symm (pow_ne_zero 2 hj0))) (hc j0)
    have htail := twoRow_fit_tail p0 q d f0 Df hd
      (fun j n => (1 / c j) * (derivativesMatrix (twoRowFA P F p0 q d f0 Df)).transpose j n)
      (fun j => Df j / c j)
      (fun j n => by
        show (1 / c j) * (derivativesMatrix (twoRowFA P F p0 q d f0 Df)).transpose j n =
          (Df j / c j) / d
        rw [Matrix.transpose_apply, twoRow_deriv p0 q d f0 Df hd]
        ring)
      (ne_of_gt htpos)
    refine ⟨_, ?_, fun n => htail.2 n⟩
    simp only [fit, twoRow_compute_derivatives p0 q d f0 Df hd, htail.1]

/-- The degenerate full-covariance case: when `Δ·C⁻¹·Δ = 0` (possible
for an invertible but indefinite covariance) the 1×1 normal-equations
matrix is singular and `fit` raises `LinAlgError` (returns `none`). -/
lemma fisher_fit_quad_zero_none {P F : ℕ} (p0 : Fin P → ℚ) (q : Fin P) (d : ℚ)
    (f0 Df : Fin F → ℚ) (C : Matrix (Fin F) (Fin F) ℚ) (hd : d ≠ 0)
    (hquad : quadForm C Df = 0) :
    fit (twoRowFA P F p0 q d f0 Df) (fun j => f0 j + Df j) (Covariance.full C) = none := by
  haveI : Subsingleton (Fin (varied (twoRowFA P F p0 q d f0 Df)).length) :=
    Fin.subsingleton_iff_le_one.mpr
      (by rw [twoRow_varied p0 q d f0 Df hd]; exact Nat.le_refl 1)
  haveI : Unique (Fin (varied (twoRowFA P F p0 q d f0 Df)).length) :=
    uniqueOfSubsingleton
      ⟨0, by rw [twoRow_varied p0 q d f0 Df hd]; exact Nat.zero_lt_one⟩
  by_cases hdet : C.det = 0
  · have hYeq : npSolve C (derivativesMatrix (twoRowFA P F p0 q d f0 Df)).transpose =
        none := by
      rw [npSolve, if_pos hdet]
    simp only [fit, twoRow_compute_derivatives p0 q d f0 Df hd, hYeq]
  · have hYeq : npSolve C (derivativesMatrix (twoRowFA P F p0 q d f0 Df)).transpose =
        some (invMat C * (derivativesMatrix (twoRowFA P F p0 q d f0 Df)).transpose) := by
      rw [npSolve, if_neg hdet]
    have hM : npSolve (derivativesMatrix (twoRowFA P F p0 q d f0 Df) *
        (invMat C * (derivativesMatrix (twoRowFA P F p0 q d f0 Df)).transpose))
        (invMat C * (derivativesMatrix (twoRowFA P F p0 q d f0 Df)).transpose).transpose =
        none := by
      rw [npSolve, if_pos]
      rw [Matrix.det_unique, twoRow_XY_full p0 q d f0 Df hd C, hquad, zero_div]
    simp only [fit, twoRow_compute_derivatives p0 q d f0 Df hd, hYeq, hM]

/-- C2 counterexample to the claim as stated: with the invertible (but
indefinite) covariance `[[0,1],[1,0]]` and `Δ = (1,0)`, the quadratic
form `Δ·C⁻¹·Δ` vanishes, the normal-equations solve hits a singular
matrix and `fit` raises instead of returning `p0 + δ`. -/
theorem fisher_fit_cex :
    (!![(0 : ℚ), 1; 1, 0]).det ≠ 0 ∧
    fit (twoRowFA 1 2 (fun _ => 0) 0 1 (fun _ => 0) ![1, 0])
      (fun j => (fun _ => (0 : ℚ)) j + (![1, 0] : Fin 2 → ℚ) j)
      (Covariance.full !![0, 1; 1, 0]) = none := by
  constructor
  · simp [Matrix.det_fin_two]
  · apply fisher_fit_quad_zero_none _ _ _ _ _ _ one_ne_zero
    simp [quadForm, invMat, Matrix.det_fin_two, Matrix.adjugate_fin_two, Fin.sum_univ_two,
      Matrix.smul_apply, Matrix.cons_val_zero, Matrix.cons_val_one, Matrix.head_cons]

/-- Witness for C2 at a concrete input: one parameter, one feature bin,
`p0 = 3`, `d = 2`, `f0 = 5`, `Δ = 7`, unit diagonal covariance; the fit
returns `3 + 2`. -/
theorem fisher_fit_exact_w :
    ∃ r, fit (twoRowFA 1 1 (fun _ => 3) 0 2 (fun _ => 5) (fun _ => 7))
        (fun j => (fun _ => (5 : ℚ)) j + (fun _ => (7 : ℚ)) j)
        (Covariance.diag (fun _ => 1)) = some r ∧
      ∀ n, r n = 3 + 2 :=
  fisher_fit_exact (fun _ => 3) 0 2 (fun _ => 5) (fun _ => 7)
    (Covariance.diag (fun _ => 1)) (by norm_num)
    ⟨fun _ => one_pos, fun h => by
      have h0 := congrFun h 0
      norm_num at h0⟩

end LensTools
